import Mathlib

/-!
Verification of a Roman numeral converter (Rust, `src/main.rs`).

The program converts between Roman numeral strings and integer values:
* `char_to_value` maps a single character (case-folded) to its magnitude;
* `greatest_str_leq_than_n` picks the greedy fragment for a remaining value;
* `RomanNumeral::to_string` is a greedy emission loop (modelled here as
  `to_string : Int → String`);
* `RomanNumeral::from_str` is a pairwise subtractive scan (modelled here as
  `from_str : String → Except RomanNumeralError Int`, returning the wrapped
  `i64` value directly).

Machine integers (`i64`) are modelled as `Int`; all values exercised by the
claims are far below the overflow boundary.
-/

namespace RomanNumerals

/-- The error type of the converter (`enum RomanNumeralError`). -/
inductive RomanNumeralError where
  | InvalidChar (c : Char) : RomanNumeralError
  | MiscError (s : String) : RomanNumeralError
deriving DecidableEq, Repr

/-- Rust's `char::to_ascii_lowercase`: shift an ASCII uppercase letter down
by 32, leave everything else unchanged. -/
def to_ascii_lowercase (c : Char) : Char :=
  if 'A' ≤ c ∧ c ≤ 'Z' then Char.ofNat (c.toNat + 32) else c

/-- `fn char_to_value(c: char) -> Result<i64, RomanNumeralError>`. -/
def char_to_value (c : Char) : Except RomanNumeralError Int :=
  match to_ascii_lowercase c with
  | 'm' => .ok 1000
  | 'd' => .ok 500
  | 'c' => .ok 100
  | 'l' => .ok 50
  | 'x' => .ok 10
  | 'v' => .ok 5
  | 'i' => .ok 1
  | _ => .error (.InvalidChar c)

/-- `fn greatest_str_leq_than_n(v: i64) -> (&'static str, i64)`: the Rust
`match` with open range patterns `1000..`, `900..`, …, and a catch-all
returning `("", 0)`. -/
def greatest_str_leq_than_n (v : Int) : String × Int :=
  if 1000 ≤ v then ("M", 1000)
  else if 900 ≤ v then ("CM", 900)
  else if 500 ≤ v then ("D", 500)
  else if 400 ≤ v then ("CD", 400)
  else if 100 ≤ v then ("C", 100)
  else if 90 ≤ v then ("XC", 90)
  else if 50 ≤ v then ("L", 50)
  else if 40 ≤ v then ("XL", 40)
  else if 10 ≤ v then ("X", 10)
  else if 9 ≤ v then ("IX", 9)
  else if 5 ≤ v then ("V", 5)
  else if 4 ≤ v then ("IV", 4)
  else if 1 ≤ v then ("I", 1)
  else ("", 0)

/-- The fixed descending table of (fragment, magnitude) pairs, as listed in
the specification of the Formatter. -/
def romanTable : List (String × Int) :=
  [("M", 1000), ("CM", 900), ("D", 500), ("CD", 400), ("C", 100), ("XC", 90),
   ("L", 50), ("XL", 40), ("X", 10), ("IX", 9), ("V", 5), ("IV", 4), ("I", 1)]

/-- Spec-side selection: the first table entry whose magnitude is at most the
remaining value (used to state the refinement claim about the Formatter). -/
def firstLeq (v : Int) : List (String × Int) → String × Int
  | [] => ("", 0)
  | e :: rest => if e.2 ≤ v then e else firstLeq v rest

theorem step_cases (v : Int) :
    (1000 ≤ v ∧ greatest_str_leq_than_n v = ("M", 1000) ∧ firstLeq v romanTable = ("M", 1000)) ∨
    (900 ≤ v ∧ v < 1000 ∧ greatest_str_leq_than_n v = ("CM", 900) ∧ firstLeq v romanTable = ("CM", 900)) ∨
    (500 ≤ v ∧ v < 900 ∧ greatest_str_leq_than_n v = ("D", 500) ∧ firstLeq v romanTable = ("D", 500)) ∨
    (400 ≤ v ∧ v < 500 ∧ greatest_str_leq_than_n v = ("CD", 400) ∧ firstLeq v romanTable = ("CD", 400)) ∨
    (100 ≤ v ∧ v < 400 ∧ greatest_str_leq_than_n v = ("C", 100) ∧ firstLeq v romanTable = ("C", 100)) ∨
    (90 ≤ v ∧ v < 100 ∧ greatest_str_leq_than_n v = ("XC", 90) ∧ firstLeq v romanTable = ("XC", 90)) ∨
    (50 ≤ v ∧ v < 90 ∧ greatest_str_leq_than_n v = ("L", 50) ∧ firstLeq v romanTable = ("L", 50)) ∨
    (40 ≤ v ∧ v < 50 ∧ greatest_str_leq_than_n v = ("XL", 40) ∧ firstLeq v romanTable = ("XL", 40)) ∨
    (10 ≤ v ∧ v < 40 ∧ greatest_str_leq_than_n v = ("X", 10) ∧ firstLeq v romanTable = ("X", 10)) ∨
    (9 ≤ v ∧ v < 10 ∧ greatest_str_leq_than_n v = ("IX", 9) ∧ firstLeq v romanTable = ("IX", 9)) ∨
    (5 ≤ v ∧ v < 9 ∧ greatest_str_leq_than_n v = ("V", 5) ∧ firstLeq v romanTable = ("V", 5)) ∨
    (4 ≤ v ∧ v < 5 ∧ greatest_str_leq_than_n v = ("IV", 4) ∧ firstLeq v romanTable = ("IV", 4)) ∨
    (1 ≤ v ∧ v < 4 ∧ greatest_str_leq_than_n v = ("I", 1) ∧ firstLeq v romanTable = ("I", 1)) ∨
    (v < 1 ∧ greatest_str_leq_than_n v = ("", 0) ∧ firstLeq v romanTable = ("", 0)) := by
  by_cases h1 : 1000 ≤ v
  · exact Or.inl ⟨h1, by rw [greatest_str_leq_than_n, if_pos h1], by simp [firstLeq, romanTable, h1]⟩
  by_cases h2 : 900 ≤ v
  · exact Or.inr (Or.inl ⟨h2, by omega, by rw [greatest_str_leq_than_n, if_neg h1, if_pos h2], by simp [firstLeq, romanTable, h1, h2]⟩)
  by_cases h3 : 500 ≤ v
  · exact Or.inr (Or.inr (Or.inl ⟨h3, by omega, by rw [greatest_str_leq_than_n, if_neg h1, if_neg h2, if_pos h3], by simp [firstLeq, romanTable, h1, h2, h3]⟩))
  by_cases h4 : 400 ≤ v
  · exact Or.inr (Or.inr (Or.inr (Or.inl ⟨h4, by omega, by rw [greatest_str_leq_than_n, if_neg h1, if_neg h2, if_neg h3, if_pos h4], by simp [firstLeq, romanTable, h1, h2, h3, h4]⟩)))
  by_cases h5 : 100 ≤ v
  · exact Or.inr (Or.inr (Or.inr (Or.inr (Or.inl ⟨h5, by omega, by rw [greatest_str_leq_than_n, if_neg h1, if_neg h2, if_neg h3, if_neg h4, if_pos h5], by simp [firstLeq, romanTable, h1, h2, h3, h4, h5]⟩))))
  by_cases h6 : 90 ≤ v
  · exact Or.inr (Or.inr (Or.inr (Or.inr (Or.inr (Or.inl ⟨h6, by omega, by rw [greatest_str_leq_than_n, if_neg h1, if_neg h2, if_neg h3, if_neg h4, if_neg h5, if_pos h6], by simp [firstLeq, romanTable, h1, h2, h3, h4, h5, h6]⟩)))))
  by_cases h7 : 50 ≤ v
  · exact Or.inr (Or.inr (Or.inr (Or.inr (Or.inr (Or.inr (Or.inl ⟨h7, by omega, by rw [greatest_str_leq_than_n, if_neg h1, if_neg h2, if_neg h3, if_neg h4, if_neg h5, if_neg h6, if_pos h7], by simp [firstLeq, romanTable, h1, h2, h3, h4, h5, h6, h7]⟩))))))
  by_cases h8 : 40 ≤ v
  · exact Or.inr (Or.inr (Or.inr (Or.inr (Or.inr (Or.inr (Or.inr (Or.inl ⟨h8, by omega, by rw [greatest_str_leq_than_n, if_neg h1, if_neg h2, if_neg h3, if_neg h4, if_neg h5, if_neg h6, if_neg h7, if_pos h8], by simp [firstLeq, romanTable, h1, h2, h3, h4, h5, h6, h7, h8]⟩)))))))
  by_cases h9 : 10 ≤ v
  · exact Or.inr (Or.inr (Or.inr (Or.inr (Or.inr (Or.inr (Or.inr (Or.inr (Or.inl ⟨h9, by omega, by rw [greatest_str_leq_than_n, if_neg h1, if_neg h2, if_neg h3, if_neg h4, if_neg h5, if_neg h6, if_neg h7, if_neg h8, if_pos h9], by simp [firstLeq, romanTable, h1, h2, h3, h4, h5, h6, h7, h8, h9]⟩))))))))
  by_cases h10 : 9 ≤ v
  · exact Or.inr (Or.inr (Or.inr (Or.inr (Or.inr (Or.inr (Or.inr (Or.inr (Or.inr (Or.inl ⟨h10, by omega, by rw [greatest_str_leq_than_n, if_neg h1, if_neg h2, if_neg h3, if_neg h4, if_neg h5, if_neg h6, if_neg h7, if_neg h8, if_neg h9, if_pos h10], by simp [firstLeq, romanTable, h1, h2, h3, h4, h5, h6, h7, h8, h9, h10]⟩)))))))))
  by_cases h11 : 5 ≤ v
  · exact Or.inr (Or.inr (Or.inr (Or.inr (Or.inr (Or.inr (Or.inr (Or.inr (Or.inr (Or.inr (Or.inl ⟨h11, by omega, by rw [greatest_str_leq_than_n, if_neg h1, if_neg h2, if_neg h3, if_neg h4, if_neg h5, if_neg h6, if_neg h7, if_neg h8, if_neg h9, if_neg h10, if_pos h11], by simp [firstLeq, romanTable, h1, h2, h3, h4, h5, h6, h7, h8, h9, h10, h11]⟩))))))))))
  by_cases h12 : 4 ≤ v
  · exact Or.inr (Or.inr (Or.inr (Or.inr (Or.inr (Or.inr (Or.inr (Or.inr (Or.inr (Or.inr (Or.inr (Or.inl ⟨h12, by omega, by rw [greatest_str_leq_than_n, if_neg h1, if_neg h2, if_neg h3, if_neg h4, if_neg h5, if_neg h6, if_neg h7, if_neg h8, if_neg h9, if_neg h10, if_neg h11, if_pos h12], by simp [firstLeq, romanTable, h1, h2, h3, h4, h5, h6, h7, h8, h9, h10, h11, h12]⟩)))))))))))
  by_cases h13 : 1 ≤ v
  · exact Or.inr (Or.inr (Or.inr (Or.inr (Or.inr (Or.inr (Or.inr (Or.inr (Or.inr (Or.inr (Or.inr (Or.inr (Or.inl ⟨h13, by omega, by rw [greatest_str_leq_than_n, if_neg h1, if_neg h2, if_neg h3, if_neg h4, if_neg h5, if_neg h6, if_neg h7, if_neg h8, if_neg h9, if_neg h10, if_neg h11, if_neg h12, if_pos h13], by simp [firstLeq, romanTable, h1, h2, h3, h4, h5, h6, h7, h8, h9, h10, h11, h12, h13]⟩))))))))))))
  exact Or.inr (Or.inr (Or.inr (Or.inr (Or.inr (Or.inr (Or.inr (Or.inr (Or.inr (Or.inr (Or.inr (Or.inr (Or.inr ⟨by omega, by rw [greatest_str_leq_than_n, if_neg h1, if_neg h2, if_neg h3, if_neg h4, if_neg h5, if_neg h6, if_neg h7, if_neg h8, if_neg h9, if_neg h10, if_neg h11, if_neg h12, if_neg h13], by simp [firstLeq, romanTable, h1, h2, h3, h4, h5, h6, h7, h8, h9, h10, h11, h12, h13]⟩))))))))))))

theorem greatest_pos (v : Int) (h : 0 < v) :
    1 ≤ (greatest_str_leq_than_n v).2 ∧ (greatest_str_leq_than_n v).2 ≤ v := by
  rcases step_cases v with ⟨hr, hg, _⟩ | ⟨hr, _, hg, _⟩ | ⟨hr, _, hg, _⟩ | ⟨hr, _, hg, _⟩ |
    ⟨hr, _, hg, _⟩ | ⟨hr, _, hg, _⟩ | ⟨hr, _, hg, _⟩ | ⟨hr, _, hg, _⟩ | ⟨hr, _, hg, _⟩ |
    ⟨hr, _, hg, _⟩ | ⟨hr, _, hg, _⟩ | ⟨hr, _, hg, _⟩ | ⟨hr, _, hg, _⟩ | ⟨hr, hg, _⟩
  all_goals first
  | exact absurd h (by omega)
  | (rw [hg]; exact ⟨by decide, hr⟩)

theorem firstLeq_eq_greatest (v : Int) :
    firstLeq v romanTable = greatest_str_leq_than_n v := by
  rcases step_cases v with ⟨_, hg, hf⟩ | ⟨_, _, hg, hf⟩ | ⟨_, _, hg, hf⟩ | ⟨_, _, hg, hf⟩ |
    ⟨_, _, hg, hf⟩ | ⟨_, _, hg, hf⟩ | ⟨_, _, hg, hf⟩ | ⟨_, _, hg, hf⟩ | ⟨_, _, hg, hf⟩ |
    ⟨_, _, hg, hf⟩ | ⟨_, _, hg, hf⟩ | ⟨_, _, hg, hf⟩ | ⟨_, _, hg, hf⟩ | ⟨_, hg, hf⟩ <;>
    rw [hf, hg]

/-- `RomanNumeral::to_string`: the `while val > 0` loop that repeatedly
appends the greedy fragment and subtracts its magnitude.  The loop guard
means a non-positive value produces the empty string immediately. -/
def to_string (v : Int) : String :=
  if h : 0 < v then
    (greatest_str_leq_than_n v).1 ++ to_string (v - (greatest_str_leq_than_n v).2)
  else ""
termination_by v.toNat
decreasing_by
  have := greatest_pos v h
  omega

/-- Fuel-indexed version of the emission loop, used to evaluate `to_string`
inside kernel computations (the well-founded definition does not reduce). -/
def toStringFuel : Nat → Int → String
  | 0, _ => ""
  | f + 1, v =>
    if 0 < v then
      (greatest_str_leq_than_n v).1 ++ toStringFuel f (v - (greatest_str_leq_than_n v).2)
    else ""

theorem to_string_eq_fuel : ∀ (f : Nat) (v : Int), v.toNat < f →
    to_string v = toStringFuel f v := by
  intro f
  induction f with
  | zero => intro v hv; omega
  | succ f ih =>
    intro v hv
    rw [to_string, toStringFuel]
    by_cases h : 0 < v
    · have hg := greatest_pos v h
      rw [dif_pos h, if_pos h, ih (v - (greatest_str_leq_than_n v).2) (by omega)]
    · rw [dif_neg h, if_neg h]

/-- Spec-side Formatter (refinement model, following the specification's
words): repeatedly find the first table entry whose magnitude is at most the
remaining value, append its fragment, and subtract, until the remainder
reaches 0. -/
def greedyFormat (v : Int) : String :=
  if h : 0 < v then
    (firstLeq v romanTable).1 ++ greedyFormat (v - (firstLeq v romanTable).2)
  else ""
termination_by v.toNat
decreasing_by
  rw [firstLeq_eq_greatest]
  have := greatest_pos v h
  omega

theorem to_string_eq_greedyFormat (v : Int) : to_string v = greedyFormat v := by
  have H : ∀ n : Nat, ∀ w : Int, w.toNat = n → to_string w = greedyFormat w := by
    intro n
    induction n using Nat.strong_induction_on with
    | _ n ih =>
      intro w hw
      rw [to_string, greedyFormat]
      by_cases h : 0 < w
      · rw [dif_pos h, dif_pos h, firstLeq_eq_greatest]
        have hb := greatest_pos w h
        rw [ih (w - (greatest_str_leq_than_n w).2).toNat (by omega) _ rfl]
      · rw [dif_neg h, dif_neg h]
  exact H v.toNat v rfl

/-- The pairwise scan over `tuple_windows`: for each adjacent pair
`(current, next)` look both characters up, accumulating `-current` when
`current < next` and `+current` otherwise.  Parameterized by the lookup
function; the program instantiates it with `char_to_value`. -/
def pairLoopG (f : Char → Except RomanNumeralError Int) :
    List Char → Except RomanNumeralError Int
  | a :: b :: rest => do
    let ca ← f a
    let cb ← f b
    let r ← pairLoopG f (b :: rest)
    pure ((if ca < cb then -ca else ca) + r)
  | _ => pure 0

/-- `RomanNumeral::from_str` on the character list: run the pair loop, then
look up the last character (`ok_or("empty string")` on an empty input) and
add its value unconditionally. -/
def fromStrListG (f : Char → Except RomanNumeralError Int) (l : List Char) :
    Except RomanNumeralError Int := do
  let res ← pairLoopG f l
  match l.getLast? with
  | none => .error (.MiscError "empty string")
  | some c => do
    let lastv ← f c
    pure (res + lastv)

def pairLoop : List Char → Except RomanNumeralError Int := pairLoopG char_to_value

def fromStrList : List Char → Except RomanNumeralError Int := fromStrListG char_to_value

/-- `RomanNumeral::from_str`, returning the parsed `i64` value. -/
def from_str (s : String) : Except RomanNumeralError Int := fromStrList s.data

instance : DecidableEq (Except RomanNumeralError Int) := fun
  | .ok a, .ok b => decidable_of_iff (a = b) (by simp)
  | .ok _, .error _ => isFalse (by simp)
  | .error _, .ok _ => isFalse (by simp)
  | .error a, .error b => decidable_of_iff (a = b) (by simp)

/-- Spec-side magnitude of a Roman digit (I=1, V=5, X=10, L=50, C=100, D=500,
M=1000, case-insensitive; 0 for an unrecognized character). -/
def magnitude (c : Char) : Int :=
  match to_ascii_lowercase c with
  | 'm' => 1000
  | 'd' => 500
  | 'c' => 100
  | 'l' => 50
  | 'x' => 10
  | 'v' => 5
  | 'i' => 1
  | _ => 0

/-- Spec-side reference pairwise scan over the magnitudes of adjacent pairs:
`-current` when `current < next`, `+current` otherwise. -/
def specPairs : List Int → Int
  | a :: b :: rest => (if a < b then -a else a) + specPairs (b :: rest)
  | _ => 0

/-- Spec-side reference parser value: the pairwise scan plus the magnitude of
the final character, added unconditionally. -/
def specPairScan (l : List Char) : Int :=
  specPairs (l.map magnitude) + ((l.getLast?.map magnitude).getD 0)

theorem char_to_value_ok (c : Char) (h : (char_to_value c).isOk = true) :
    char_to_value c = .ok (magnitude c) := by
  unfold char_to_value magnitude at *
  split <;> simp_all [Except.isOk, Except.toBool]

theorem char_to_value_err (c : Char) (h : ¬ (char_to_value c).isOk = true) :
    char_to_value c = .error (.InvalidChar c) := by
  unfold char_to_value at *
  split <;> simp_all [Except.isOk, Except.toBool]

theorem magnitude_bounds (c : Char) (h : (char_to_value c).isOk = true) :
    1 ≤ magnitude c ∧ magnitude c ≤ 1000 := by
  unfold char_to_value at h
  unfold magnitude
  split <;> simp_all [Except.isOk, Except.toBool]

theorem pairLoop_ok (l : List Char) (h : ∀ c ∈ l, (char_to_value c).isOk = true) :
    pairLoop l = .ok (specPairs (l.map magnitude)) := by
  induction l with
  | nil => rfl
  | cons a t ih =>
    cases t with
    | nil => rfl
    | cons b t' =>
      have ha := char_to_value_ok a (h a (by simp))
      have hb := char_to_value_ok b (h b (by simp))
      have ih' := ih (fun c hc => h c (by simp [hc]))
      simp only [pairLoop] at ih' ⊢
      simp [pairLoopG, specPairs, ha, hb, ih', Bind.bind, Except.bind, pure, Except.pure]

theorem fromStrList_ok (l : List Char) (hne : l ≠ [])
    (h : ∀ c ∈ l, (char_to_value c).isOk = true) :
    fromStrList l = .ok (specPairScan l) := by
  have hc : l.getLast? = some (l.getLast hne) := List.getLast?_eq_getLast l hne
  have hcl : l.getLast hne ∈ l := List.getLast_mem hne
  have hcv := char_to_value_ok _ (h _ hcl)
  have hpl : pairLoopG char_to_value l = .ok (specPairs (l.map magnitude)) :=
    pairLoop_ok l h
  simp only [fromStrList, fromStrListG, specPairScan, hpl, hc, hcv,
    Bind.bind, Except.bind, pure, Except.pure]
  rfl

theorem pairLoop_err (pre : List Char) (c : Char) (post : List Char)
    (hpre : ∀ d ∈ pre, (char_to_value d).isOk = true)
    (hc : ¬ (char_to_value c).isOk = true)
    (hlen : pre ≠ [] ∨ post ≠ []) :
    pairLoop (pre ++ c :: post) = .error (.InvalidChar c) := by
  have hce := char_to_value_err c hc
  induction pre with
  | nil =>
    cases post with
    | nil => simp at hlen
    | cons p rest =>
      simp only [List.nil_append, pairLoop]
      rw [pairLoopG, hce]
      rfl
  | cons a pre' ih =>
    have ha := char_to_value_ok a (hpre a (by simp))
    cases hp : pre' with
    | nil =>
      subst hp
      simp only [List.cons_append, List.nil_append, pairLoop]
      rw [pairLoopG, ha, hce]
      rfl
    | cons b pre'' =>
      subst hp
      have hb := char_to_value_ok b (hpre b (by simp))
      have ih' := ih (fun d hd => hpre d (List.mem_cons_of_mem a hd)) (Or.inl (by simp))
      simp only [pairLoop, List.cons_append] at ih' ⊢
      rw [pairLoopG, ha, hb, ih']
      rfl

theorem fromStrList_err (pre : List Char) (c : Char) (post : List Char)
    (hpre : ∀ d ∈ pre, (char_to_value d).isOk = true)
    (hc : ¬ (char_to_value c).isOk = true) :
    fromStrList (pre ++ c :: post) = .error (.InvalidChar c) := by
  have hce := char_to_value_err c hc
  by_cases hl : pre = [] ∧ post = []
  · obtain ⟨h1, h2⟩ := hl
    subst h1; subst h2
    simp only [List.nil_append, fromStrList, fromStrListG]
    rw [show pairLoopG char_to_value [c] = .ok 0 from rfl]
    simp only [Bind.bind, Except.bind, List.getLast?]
    have hgl : [c].getLast (by simp) = c := rfl
    rw [hgl, hce]
  · have hlen : pre ≠ [] ∨ post ≠ [] := by tauto
    have hpl := pairLoop_err pre c post hpre hc hlen
    simp only [pairLoop] at hpl
    simp only [fromStrList, fromStrListG, hpl, Bind.bind, Except.bind]

theorem specPairs_rep1000 (q : Nat) (ms : List Int) (hne : ms ≠ [])
    (hh : ∀ m, ms.head? = some m → m ≤ 1000) :
    specPairs (List.replicate q 1000 ++ ms) = 1000 * q + specPairs ms := by
  induction q with
  | zero => simp
  | succ q ih =>
    rw [List.replicate_succ, List.cons_append]
    cases ht : List.replicate q 1000 ++ ms with
    | nil => exact absurd (List.append_eq_nil.1 ht).2 hne
    | cons b t' =>
      have hb : b ≤ 1000 := by
        cases q with
        | zero =>
          cases ms with
          | nil => exact absurd rfl hne
          | cons m ms' =>
            simp only [List.replicate, List.nil_append, List.cons.injEq] at ht
            exact ht.1 ▸ hh m rfl
        | succ q' =>
          simp only [List.replicate_succ, List.cons_append, List.cons.injEq] at ht
          omega
      rw [ht] at ih
      rw [specPairs, ih, if_neg (by omega)]
      push_cast
      ring

theorem getLast?_map_magnitude (l : List Char) :
    (l.map magnitude).getLast? = l.getLast?.map magnitude := by
  induction l with
  | nil => rfl
  | cons a t ih =>
    cases t with
    | nil => rfl
    | cons b t' => simpa using ih

theorem specPairScan_repM_append (q : Nat) (l : List Char) (hne : l ≠ [])
    (hh : ∀ c, l.head? = some c → magnitude c ≤ 1000) :
    specPairScan (List.replicate q 'M' ++ l) = 1000 * q + specPairScan l := by
  have hmagM : magnitude 'M' = 1000 := by decide
  have hmap : (List.replicate q 'M' ++ l).map magnitude =
      List.replicate q 1000 ++ l.map magnitude := by
    rw [List.map_append, List.map_replicate, hmagM]
  have hne' : l.map magnitude ≠ [] := by
    cases l with
    | nil => exact absurd rfl hne
    | cons a t => simp
  have hh' : ∀ m, (l.map magnitude).head? = some m → m ≤ 1000 := by
    intro m hm
    cases l with
    | nil => exact absurd rfl hne
    | cons a t =>
      simp only [List.map_cons, List.head?_cons, Option.some.injEq] at hm
      exact hm ▸ hh a rfl
  have hlast : (List.replicate q 'M' ++ l).getLast? = l.getLast? :=
    List.getLast?_append_of_ne_nil _ hne
  rw [specPairScan, specPairScan, hmap, specPairs_rep1000 q _ hne' hh', hlast]
  ring

theorem to_string_nonpos (v : Int) (h : ¬ 0 < v) : to_string v = "" := by
  rw [to_string, dif_neg h]

theorem greatest_chars (v : Int) :
    ∀ c ∈ (greatest_str_leq_than_n v).1.data, (char_to_value c).isOk = true := by
  rcases step_cases v with ⟨_, hg, _⟩ | ⟨_, _, hg, _⟩ | ⟨_, _, hg, _⟩ | ⟨_, _, hg, _⟩ |
    ⟨_, _, hg, _⟩ | ⟨_, _, hg, _⟩ | ⟨_, _, hg, _⟩ | ⟨_, _, hg, _⟩ | ⟨_, _, hg, _⟩ |
    ⟨_, _, hg, _⟩ | ⟨_, _, hg, _⟩ | ⟨_, _, hg, _⟩ | ⟨_, _, hg, _⟩ | ⟨_, hg, _⟩ <;>
    rw [hg] <;> decide

theorem greatest_ne_empty (v : Int) (h : 0 < v) :
    (greatest_str_leq_than_n v).1.data ≠ [] := by
  rcases step_cases v with ⟨hr, hg, _⟩ | ⟨hr, _, hg, _⟩ | ⟨hr, _, hg, _⟩ | ⟨hr, _, hg, _⟩ |
    ⟨hr, _, hg, _⟩ | ⟨hr, _, hg, _⟩ | ⟨hr, _, hg, _⟩ | ⟨hr, _, hg, _⟩ | ⟨hr, _, hg, _⟩ |
    ⟨hr, _, hg, _⟩ | ⟨hr, _, hg, _⟩ | ⟨hr, _, hg, _⟩ | ⟨hr, _, hg, _⟩ | ⟨hr, hg, _⟩
  all_goals first
  | exact absurd h (by omega)
  | (rw [hg]; decide)

theorem to_string_chars (v : Int) :
    ∀ c ∈ (to_string v).data, (char_to_value c).isOk = true := by
  have H : ∀ n : Nat, ∀ w : Int, w.toNat = n →
      ∀ c ∈ (to_string w).data, (char_to_value c).isOk = true := by
    intro n
    induction n using Nat.strong_induction_on with
    | _ n ih =>
      intro w hw c hc
      rw [to_string] at hc
      by_cases h : 0 < w
      · rw [dif_pos h, String.data_append] at hc
        rcases List.mem_append.1 hc with h1 | h2
        · exact greatest_chars w c h1
        · have hb := greatest_pos w h
          exact ih (w - (greatest_str_leq_than_n w).2).toNat (by omega) _ rfl c h2
      · rw [dif_neg h] at hc
        simp at hc
  exact H v.toNat v rfl

theorem to_string_ne_empty (v : Int) (h : 0 < v) : (to_string v).data ≠ [] := by
  rw [to_string, dif_pos h, String.data_append]
  intro hh
  exact greatest_ne_empty v h (List.append_eq_nil.1 hh).1

theorem to_string_decomp (v : Int) (hv : 0 ≤ v) :
    ∃ (q : Nat) (u : Int), 0 ≤ u ∧ u < 1000 ∧ v = 1000 * q + u ∧
      (to_string v).data = List.replicate q 'M' ++ (to_string u).data := by
  have H : ∀ n : Nat, ∀ w : Int, w.toNat = n → 0 ≤ w →
      ∃ (q : Nat) (u : Int), 0 ≤ u ∧ u < 1000 ∧ w = 1000 * q + u ∧
        (to_string w).data = List.replicate q 'M' ++ (to_string u).data := by
    intro n
    induction n using Nat.strong_induction_on with
    | _ n ih =>
      intro w hw hw0
      by_cases h : 1000 ≤ w
      · have hg : greatest_str_leq_than_n w = ("M", 1000) := by
          rw [greatest_str_leq_than_n, if_pos h]
        obtain ⟨q, u, hu0, hu1, hqu, hdata⟩ :=
          ih (w - 1000).toNat (by omega) (w - 1000) rfl (by omega)
        refine ⟨q + 1, u, hu0, hu1, by push_cast; omega, ?_⟩
        rw [to_string, dif_pos (by omega : 0 < w), hg, String.data_append, hdata]
        rw [List.replicate_succ, List.cons_append]
        rfl
      · exact ⟨0, w, hw0, by omega, by omega, by simp⟩
  exact H v.toNat v rfl hv

set_option maxRecDepth 10000 in
set_option maxHeartbeats 4000000 in
theorem roundtrip_finite : ∀ n : Nat, n < 1000 →
    n = 0 ∨ from_str (toStringFuel 1000 (n : Int)) = .ok (n : Int) := by decide

theorem roundtrip_pos (v : Int) (h1 : 1 ≤ v) : from_str (to_string v) = .ok v := by
  obtain ⟨q, u, hu0, hu1, hqu, hdata⟩ := to_string_decomp v (by omega)
  rw [from_str, hdata]
  by_cases hu : u = 0
  · subst hu
    rw [to_string_nonpos 0 (by omega)]
    obtain ⟨q', rfl⟩ : ∃ q', q = q' + 1 := ⟨q - 1, by omega⟩
    rw [show (("" : String)).data = [] from rfl, List.append_nil]
    rw [List.replicate_succ' q' 'M']
    have hvalid : ∀ c ∈ List.replicate q' 'M' ++ ['M'], (char_to_value c).isOk = true := by
      intro c hc
      rcases List.mem_append.1 hc with h | h
      · rw [List.eq_of_mem_replicate h]; decide
      · simp only [List.mem_singleton] at h; subst h; decide
    rw [fromStrList_ok _ (by simp) hvalid]
    rw [specPairScan_repM_append q' ['M'] (by simp)
      (by intro c hc; simp only [List.head?_cons, Option.some.injEq] at hc; subst hc; decide)]
    rw [show specPairScan ['M'] = 1000 from by decide]
    congr 1
    push_cast at hqu ⊢
    omega
  · have hne : (to_string u).data ≠ [] := to_string_ne_empty u (by omega)
    have hvalid : ∀ c ∈ (to_string u).data, (char_to_value c).isOk = true := to_string_chars u
    have hvalid' : ∀ c ∈ List.replicate q 'M' ++ (to_string u).data,
        (char_to_value c).isOk = true := by
      intro c hc
      rcases List.mem_append.1 hc with h | h
      · rw [List.eq_of_mem_replicate h]; decide
      · exact hvalid c h
    rw [fromStrList_ok _ (by intro hcontra; exact hne (List.append_eq_nil.1 hcontra).2) hvalid']
    rw [specPairScan_repM_append q _ hne (by
      intro c hc
      have hcm : c ∈ (to_string u).data := List.mem_of_mem_head? hc
      exact (magnitude_bounds c (hvalid c hcm)).2)]
    rcases roundtrip_finite u.toNat (by omega) with h0 | hfs
    · omega
    · have hcast : ((u.toNat : Nat) : Int) = u := by omega
      rw [hcast] at hfs
      rw [← to_string_eq_fuel 1000 u (by omega)] at hfs
      rw [from_str, fromStrList_ok _ hne hvalid] at hfs
      have hscan : specPairScan (to_string u).data = u := by
        injection hfs
      rw [hscan]
      congr 1
      omega

/-- Four consecutive occurrences of the character `c` somewhere in the list
(the shape forbidden by canonical minimality for fragments that have a
subtractive replacement). -/
def hasQuad (c : Char) : List Char → Bool
  | a :: b :: d :: e :: rest =>
    (a == c && b == c && d == c && e == c) || hasQuad c (b :: d :: e :: rest)
  | _ => false

theorem hasQuad_cons_ne (c x : Char) (l : List Char) (hx : ¬ x = c) :
    hasQuad c (x :: l) = hasQuad c l := by
  match l with
  | [] => rfl
  | [b] => rfl
  | [b, d] => rfl
  | b :: d :: e :: rest => simp [hasQuad, hx]

theorem hasQuad_repM (c : Char) (q : Nat) (l : List Char) (hc : ¬ c = 'M') :
    hasQuad c (List.replicate q 'M' ++ l) = hasQuad c l := by
  induction q with
  | zero => rfl
  | succ q ih =>
    rw [List.replicate_succ, List.cons_append,
      hasQuad_cons_ne c 'M' _ (fun hh => hc hh.symm), ih]

set_option maxRecDepth 10000 in
set_option maxHeartbeats 4000000 in
theorem quad_finite : ∀ n : Nat, n < 1000 →
    hasQuad 'I' (toStringFuel 1000 (n : Int)).data = false ∧
    hasQuad 'X' (toStringFuel 1000 (n : Int)).data = false ∧
    hasQuad 'C' (toStringFuel 1000 (n : Int)).data = false := by decide

theorem noQuad (v : Int) (hv : 0 ≤ v) (c : Char) (hc : c = 'I' ∨ c = 'X' ∨ c = 'C') :
    hasQuad c (to_string v).data = false := by
  obtain ⟨q, u, hu0, hu1, hqu, hdata⟩ := to_string_decomp v hv
  have hcM : ¬ c = 'M' := by rcases hc with rfl | rfl | rfl <;> decide
  rw [hdata, hasQuad_repM c q _ hcM]
  have hcast : ((u.toNat : Nat) : Int) = u := by omega
  rw [to_string_eq_fuel 1000 u (by omega), ← hcast]
  have hfin := quad_finite u.toNat (by omega)
  rcases hc with rfl | rfl | rfl
  · exact hfin.1
  · exact hfin.2.1
  · exact hfin.2.2

/-- One character is the other up to a case change of a recognized Roman
letter (or they are equal). -/
def caseEquivChar (a b : Char) : Bool :=
  a == b || (to_ascii_lowercase a == to_ascii_lowercase b && (char_to_value a).isOk)

/-- Pointwise `caseEquivChar` on equal-length strings. -/
def caseEquivList : List Char → List Char → Bool
  | [], [] => true
  | a :: s, b :: t => caseEquivChar a b && caseEquivList s t
  | _, _ => false

theorem char_to_value_congr (a b : Char) (h : to_ascii_lowercase a = to_ascii_lowercase b)
    (ha : (char_to_value a).isOk = true) : char_to_value a = char_to_value b := by
  unfold char_to_value at *
  rw [← h]
  split <;> simp_all [Except.isOk, Except.toBool]

theorem caseEquivChar_cv (a b : Char) (h : caseEquivChar a b = true) :
    char_to_value a = char_to_value b := by
  unfold caseEquivChar at h
  simp only [Bool.or_eq_true, Bool.and_eq_true, beq_iff_eq] at h
  rcases h with h | ⟨h1, h2⟩
  · rw [h]
  · exact char_to_value_congr a b h1 h2

theorem map_cv_of_caseEquiv : ∀ (s t : List Char), caseEquivList s t = true →
    s.map char_to_value = t.map char_to_value := by
  intro s
  induction s with
  | nil =>
    intro t h
    cases t with
    | nil => rfl
    | cons b t' => simp [caseEquivList] at h
  | cons a s' ih =>
    intro t h
    cases t with
    | nil => simp [caseEquivList] at h
    | cons b t' =>
      rw [caseEquivList, Bool.and_eq_true] at h
      simp only [List.map_cons, caseEquivChar_cv a b h.1, ih t' h.2]

theorem pairLoop_map_congr : ∀ (s t : List Char),
    s.map char_to_value = t.map char_to_value → pairLoop s = pairLoop t := by
  intro s
  induction s with
  | nil =>
    intro t h
    cases t with
    | nil => rfl
    | cons b t' => simp at h
  | cons a s' ih =>
    intro t h
    cases t with
    | nil => simp at h
    | cons b t' =>
      simp only [List.map_cons, List.cons.injEq] at h
      obtain ⟨hab, hst⟩ := h
      cases s' with
      | nil =>
        cases t' with
        | nil => rfl
        | cons b2 t'' => simp at hst
      | cons a2 s'' =>
        cases t' with
        | nil => simp at hst
        | cons b2 t'' =>
          have hab2 : char_to_value a2 = char_to_value b2 := by
            simp only [List.map_cons, List.cons.injEq] at hst
            exact hst.1
          have ih' := ih (b2 :: t'') hst
          simp only [pairLoop] at ih' ⊢
          rw [pairLoopG, pairLoopG]
          simp only [← hab, ← hab2, ← ih']

theorem fromStrList_map_congr (s t : List Char)
    (h : s.map char_to_value = t.map char_to_value) : fromStrList s = fromStrList t := by
  have hp := pairLoop_map_congr s t h
  have hlast : s.getLast?.map char_to_value = t.getLast?.map char_to_value := by
    rw [← List.getLast?_map, ← List.getLast?_map, h]
  simp only [pairLoop] at hp
  unfold fromStrList fromStrListG
  rw [hp]
  congr 1
  funext res
  cases hs : s.getLast? with
  | none =>
    cases ht : t.getLast? with
    | none => rfl
    | some d => rw [hs, ht] at hlast; simp at hlast
  | some c =>
    cases ht : t.getLast? with
    | none => rw [hs, ht] at hlast; simp at hlast
    | some d =>
      rw [hs, ht] at hlast
      simp only [Option.map_some'] at hlast
      have hcd : char_to_value c = char_to_value d := by injection hlast
      simp only [hcd]

theorem isOk_iff_lower_mem (c : Char) :
    (char_to_value c).isOk = true ↔
      to_ascii_lowercase c ∈ (['m', 'd', 'c', 'l', 'x', 'v', 'i'] : List Char) := by
  unfold char_to_value
  split
  case h_1 heq => rw [heq]; decide
  case h_2 heq => rw [heq]; decide
  case h_3 heq => rw [heq]; decide
  case h_4 heq => rw [heq]; decide
  case h_5 heq => rw [heq]; decide
  case h_6 heq => rw [heq]; decide
  case h_7 heq => rw [heq]; decide
  case h_8 => simp_all [Except.isOk, Except.toBool, List.mem_cons]

/-- Claim C1: for every integer v in [1, 9999], formatting v to a Roman
numeral string and parsing it back returns exactly v (boundary values
included; the proof factors through `roundtrip_pos`, which holds for every
positive v). -/
theorem claim_C1 (v : Int) (h1 : 1 ≤ v) (h2 : v ≤ 9999) :
    from_str (to_string v) = .ok v :=
  roundtrip_pos v h1

theorem claim_C1_witness :
    from_str (to_string 9999) = .ok 9999 ∧ from_str (to_string 4000) = .ok 4000 :=
  ⟨claim_C1 9999 (by norm_num) (by norm_num), claim_C1 4000 (by norm_num) (by norm_num)⟩

/-- Claim C2: on every non-empty string of recognized Roman letters, the
parser returns the value of the reference pairwise scan (`specPairScan`);
in particular a single character parses to its magnitude, and
"XIX" parses to 19. -/
theorem claim_C2 :
    (∀ l : List Char, l ≠ [] → (∀ c ∈ l, (char_to_value c).isOk = true) →
      from_str (String.mk l) = .ok (specPairScan l)) ∧
    (∀ c : Char, (char_to_value c).isOk = true →
      from_str (String.mk [c]) = .ok (magnitude c)) ∧
    from_str "XIX" = .ok 19 := by
  refine ⟨fun l hne hv => fromStrList_ok l hne hv, fun c hc => ?_, by decide⟩
  have h := fromStrList_ok [c] (by simp)
    (by intro d hd; simp only [List.mem_singleton] at hd; subst hd; exact hc)
  rw [show specPairScan [c] = magnitude c from by simp [specPairScan, specPairs]] at h
  exact h

theorem claim_C2_witness : from_str (String.mk ['V']) = .ok (magnitude 'V') :=
  claim_C2.2.1 'V' (by decide)

/-- Claim C3 as stated is false: the pairwise rule gives parse("IIX") = 10,
not 8 (pairs (I,I) → +1, (I,X) → -1, final X → +10). -/
theorem claim_C3_counterexample :
    from_str "IIX" = .ok 10 ∧ ¬ from_str "IIX" = .ok 8 := by decide

/-- Claim C3 (amended): the parser accepts non-canonical input without
rejection: parse("IIII") = 4, parse("IIX") = 10 (the value of the pairwise
rule), parse("IC") = 99, and parse("VX") = 5. -/
theorem claim_C3 :
    from_str "IIII" = .ok 4 ∧ from_str "IIX" = .ok 10 ∧
    from_str "IC" = .ok 99 ∧ from_str "VX" = .ok 5 := by decide

/-- Claim C4: parsing the empty string yields the structural error with
reason "empty string", never a numeric result; and this happens for every
possible lookup function, i.e. without any character lookup being
attempted. -/
theorem claim_C4 :
    from_str "" = .error (.MiscError "empty string") ∧
    (∀ f : Char → Except RomanNumeralError Int,
      fromStrListG f [] = .error (.MiscError "empty string")) :=
  ⟨rfl, fun _ => rfl⟩

theorem claim_C4_witness :
    fromStrListG char_to_value [] = .error (.MiscError "empty string") :=
  claim_C4.2 char_to_value

/-- Claim C5: for every v ≥ 0 the formatter succeeds (it is a total function
into strings) and returns exactly the greedy algorithm over the fixed
descending table `romanTable`; in particular format(0) = "" and
format(5000) = "MMMMM". -/
theorem claim_C5 :
    (∀ v : Int, 0 ≤ v → to_string v = greedyFormat v) ∧
    to_string 0 = "" ∧ to_string 5000 = "MMMMM" := by
  refine ⟨fun v _ => to_string_eq_greedyFormat v, to_string_nonpos 0 (by norm_num), ?_⟩
  rw [to_string_eq_fuel 5001 5000 (by decide)]
  decide

theorem claim_C5_witness : to_string 7 = greedyFormat 7 :=
  claim_C5.1 7 (by norm_num)

/-- Claim C6: for every v ≥ 0 the formatted string never contains four
consecutive identical fragments whose magnitude has a subtractive form
(no "IIII", "XXXX" or "CCCC" run); in particular format(4) = "IV" and
format(9) = "IX". -/
theorem claim_C6 :
    (∀ v : Int, 0 ≤ v → ∀ c : Char, (c = 'I' ∨ c = 'X' ∨ c = 'C') →
      hasQuad c (to_string v).data = false) ∧
    to_string 4 = "IV" ∧ to_string 9 = "IX" := by
  refine ⟨fun v hv c hc => noQuad v hv c hc, ?_, ?_⟩
  · rw [to_string_eq_fuel 5 4 (by decide)]; decide
  · rw [to_string_eq_fuel 10 9 (by decide)]; decide

theorem claim_C6_witness : hasQuad 'I' (to_string 1984).data = false :=
  claim_C6.1 1984 (by norm_num) 'I' (Or.inl rfl)

/-- Claim C7: parsing any single character whose case-folding is outside the
set {i,v,x,l,c,d,m} returns `InvalidChar` carrying the original
(non-case-folded) character. -/
theorem claim_C7 (c : Char)
    (h : to_ascii_lowercase c ∉ (['m', 'd', 'c', 'l', 'x', 'v', 'i'] : List Char)) :
    from_str (String.mk [c]) = .error (.InvalidChar c) := by
  have hc : ¬ (char_to_value c).isOk = true := fun hh => h ((isOk_iff_lower_mem c).1 hh)
  exact fromStrList_err [] c [] (by intro d hd; simp at hd) hc

theorem claim_C7_witness :
    from_str (String.mk ['a']) = .error (.InvalidChar 'a') ∧
    from_str (String.mk ['!']) = .error (.InvalidChar '!') ∧
    from_str (String.mk [' ']) = .error (.InvalidChar ' ') :=
  ⟨claim_C7 'a' (by decide), claim_C7 '!' (by decide), claim_C7 ' ' (by decide)⟩

/-- Claim C8: parsing is case-insensitive: changing the case of recognized
Roman letters (pointwise, per `caseEquivList`) does not change the parse
result, and parse("mmxxiii") = parse("MMXXIII") = 2023. -/
theorem claim_C8 :
    (∀ s t : String, caseEquivList s.data t.data = true → from_str s = from_str t) ∧
    from_str "mmxxiii" = .ok 2023 ∧ from_str "MMXXIII" = .ok 2023 :=
  ⟨fun s t h => fromStrList_map_congr s.data t.data (map_cv_of_caseEquiv s.data t.data h),
    by decide, by decide⟩

theorem claim_C8_witness : from_str "mmxxiii" = from_str "MMXXIII" :=
  claim_C8.1 "mmxxiii" "MMXXIII" (by decide)

/-- Claim C9: when the input contains an unrecognized character, the parser
returns `InvalidChar` for the leftmost one and stops: if every character of
`pre` is recognized and `c` is not, parsing `pre ++ c :: post` yields
exactly `InvalidChar c`, whatever follows. -/
theorem claim_C9 (pre : List Char) (c : Char) (post : List Char)
    (hpre : ∀ d ∈ pre, (char_to_value d).isOk = true)
    (hc : (char_to_value c).isOk = false) :
    from_str (String.mk (pre ++ c :: post)) = .error (.InvalidChar c) :=
  fromStrList_err pre c post hpre (by simp [hc])

theorem claim_C9_witness :
    from_str (String.mk (['X'] ++ 'q' :: ['I', '?'])) = .error (.InvalidChar 'q') :=
  claim_C9 ['X'] 'q' ['I', '?'] (by decide) (by decide)

/-- Claim C10: for every negative value the emission loop terminates
immediately (the guard `val > 0` fails up front) and the result is the
empty string. -/
theorem claim_C10 (v : Int) (h : v < 0) : to_string v = "" :=
  to_string_nonpos v (by omega)

theorem claim_C10_witness : to_string (-5) = "" :=
  claim_C10 (-5) (by norm_num)

end RomanNumerals
